import Mathlib

/-!
Verification of the supply-interruption core of `supply_interruption_app.py`.

Shallow embedding conventions:
* timestamps and durations are integers counting seconds (`ℤ`);
  `timedelta(hours=1)` is `3600`, `timedelta(hours=3)` is `10800`;
* pressures and property heights are rationals (`ℚ`);
* a pandas boolean Series is a `List Bool`, a datetime Series a `List ℤ`.
-/

/-- An interruption event, the dict built by `get_supply_interruptions`
(keys `lost_time`, `regained_time`, `duration`). -/
structure InterruptionEvent where
  lost_time : ℤ
  regained_time : ℤ
  duration : ℤ
deriving Repr, DecidableEq

/-- The scanning loop of `get_supply_interruptions` (lines 61-73): the state is
`none` when `in_interrupt` is false and `some start_time` when it is true.
On a `false` sample while in supply it records the start time; on a `true`
sample while interrupted it emits the event and resets.  Returns the emitted
events together with the final state. -/
def scan_loop : List (ℤ × Bool) → Option ℤ → List InterruptionEvent × Option ℤ
  | [], st => ([], st)
  | (t, b) :: rest, none =>
    if b then scan_loop rest none else scan_loop rest (some t)
  | (t, b) :: rest, some s =>
    if b then
      let r := scan_loop rest none
      (⟨s, t, t - s⟩ :: r.1, r.2)
    else
      scan_loop rest (some s)

/-- Embedding of `get_supply_interruptions` (lines 49-82): runs the scan over the paired
series and, when the scan ends while interrupted, closes the open event with
the final timestamp (`time_series.iloc[-1]`, line 75). -/
def get_supply_interruptions (time_series : List ℤ) (status_series : List Bool) :
    List InterruptionEvent :=
  match (scan_loop (time_series.zip status_series) none).2, time_series.getLast? with
  | some s, some tl =>
    (scan_loop (time_series.zip status_series) none).1 ++ [⟨s, tl, tl - s⟩]
  | _, _ => (scan_loop (time_series.zip status_series) none).1

example : get_supply_interruptions [0, 1, 2, 3] [true, false, false, true] =
    [⟨1, 3, 2⟩] := by decide

example : get_supply_interruptions [0, 1] [true, false] = [⟨1, 1, 0⟩] := by decide

example : get_supply_interruptions [0] [false] = [⟨0, 0, 0⟩] := by decide

example : get_supply_interruptions [] [] = [] := by decide

/-- Structural invariant of the scanning loop, proved for an arbitrary state:
on time-sorted input every emitted event is well formed, events are pairwise
disjoint, the pending start time (if any) is bounded by the remaining input,
and every recorded time is one of the input times. -/
theorem scan_loop_spec (l : List (ℤ × Bool)) : ∀ st : Option ℤ,
    List.Pairwise (fun a b : ℤ × Bool => a.1 ≤ b.1) l →
    (∀ s : ℤ, st = some s → ∀ x ∈ l, s ≤ x.1) →
    (∀ e ∈ (scan_loop l st).1,
        e.duration = e.regained_time - e.lost_time ∧ e.lost_time ≤ e.regained_time)
    ∧ List.Pairwise (fun e1 e2 : InterruptionEvent => e1.regained_time ≤ e2.lost_time)
        (scan_loop l st).1
    ∧ (∀ s : ℤ, (scan_loop l st).2 = some s →
        ∀ e ∈ (scan_loop l st).1, e.regained_time ≤ s)
    ∧ (∀ s : ℤ, (scan_loop l st).2 = some s →
        ∀ x : ℤ × Bool, l.getLast? = some x → s ≤ x.1)
    ∧ (∀ e ∈ (scan_loop l st).1, e.lost_time ∈ l.map Prod.fst ∨ st = some e.lost_time)
    ∧ (∀ s : ℤ, (scan_loop l st).2 = some s → s ∈ l.map Prod.fst ∨ st = some s) := by
  induction l with
  | nil =>
    intro st _ _
    refine ⟨by simp [scan_loop], by simp [scan_loop], by simp [scan_loop],
      by simp [scan_loop], by simp [scan_loop], fun s hs => Or.inr (by simpa [scan_loop] using hs)⟩
  | cons hd tl ih =>
    obtain ⟨t, b⟩ := hd
    intro st hpw hst
    rw [List.pairwise_cons] at hpw
    cases st with
    | none =>
      cases b with
      | true =>
        have hred : scan_loop ((t, true) :: tl) none = scan_loop tl none := by
          simp [scan_loop]
        obtain ⟨ih1, ih2, ih3, ih4, ih5, ih6⟩ := ih none hpw.2 (by simp)
        rw [hred]
        refine ⟨ih1, ih2, ih3, ?_, ?_, ?_⟩
        · intro s hs x hx
          cases tl with
          | nil => simp [scan_loop] at hs
          | cons hd2 tl2 =>
            rw [List.getLast?_cons_cons] at hx
            exact ih4 s hs x hx
        · intro e he
          rcases ih5 e he with h | h
          · exact Or.inl (by rw [List.map_cons]; exact List.mem_cons_of_mem _ h)
          · simp at h
        · intro s hs
          rcases ih6 s hs with h | h
          · exact Or.inl (by rw [List.map_cons]; exact List.mem_cons_of_mem _ h)
          · simp at h
      | false =>
        have hred : scan_loop ((t, false) :: tl) none = scan_loop tl (some t) := by
          simp [scan_loop]
        obtain ⟨ih1, ih2, ih3, ih4, ih5, ih6⟩ := ih (some t)
          hpw.2 (by rintro s rfl1 x hx; cases rfl1; exact hpw.1 x hx)
        rw [hred]
        refine ⟨ih1, ih2, ih3, ?_, ?_, ?_⟩
        · intro s hs x hx
          cases tl with
          | nil =>
            simp [scan_loop] at hs
            simp at hx
            cases hx
            simp [← hs]
          | cons hd2 tl2 =>
            rw [List.getLast?_cons_cons] at hx
            exact ih4 s hs x hx
        · intro e he
          rcases ih5 e he with h | h
          · exact Or.inl (by rw [List.map_cons]; exact List.mem_cons_of_mem _ h)
          · injection h with h
            exact Or.inl (by simp [h])
        · intro s hs
          rcases ih6 s hs with h | h
          · exact Or.inl (by rw [List.map_cons]; exact List.mem_cons_of_mem _ h)
          · injection h with h
            exact Or.inl (by simp [h])
    | some s0 =>
      cases b with
      | false =>
        have hred : scan_loop ((t, false) :: tl) (some s0) = scan_loop tl (some s0) := by
          simp [scan_loop]
        obtain ⟨ih1, ih2, ih3, ih4, ih5, ih6⟩ := ih (some s0)
          hpw.2 (by
            rintro s hs x hx
            injection hs with hs
            subst hs
            exact hst s0 rfl x (List.mem_cons_of_mem _ hx))
        rw [hred]
        refine ⟨ih1, ih2, ih3, ?_, ?_, ?_⟩
        · intro s hs x hx
          cases tl with
          | nil =>
            simp [scan_loop] at hs
            simp at hx
            cases hx
            rw [← hs]
            exact hst s0 rfl (t, false) (by simp)
          | cons hd2 tl2 =>
            rw [List.getLast?_cons_cons] at hx
            exact ih4 s hs x hx
        · intro e he
          rcases ih5 e he with h | h
          · exact Or.inl (by rw [List.map_cons]; exact List.mem_cons_of_mem _ h)
          · exact Or.inr h
        · intro s hs
          rcases ih6 s hs with h | h
          · exact Or.inl (by rw [List.map_cons]; exact List.mem_cons_of_mem _ h)
          · exact Or.inr h
      | true =>
        have hred : scan_loop ((t, true) :: tl) (some s0) =
            (⟨s0, t, t - s0⟩ :: (scan_loop tl none).1, (scan_loop tl none).2) := by
          simp [scan_loop]
        obtain ⟨ih1, ih2, ih3, ih4, ih5, ih6⟩ := ih none hpw.2 (by simp)
        rw [hred]
        have hs0t : s0 ≤ t := hst s0 rfl (t, true) (by simp)
        have hlost_ge : ∀ e ∈ (scan_loop tl none).1, t ≤ e.lost_time := by
          intro e he
          rcases ih5 e he with h | h
          · rcases List.mem_map.mp h with ⟨x, hx, hx1⟩
            exact hx1 ▸ hpw.1 x hx
          · simp at h
        refine ⟨?_, ?_, ?_, ?_, ?_, ?_⟩
        · intro e he
          rcases List.mem_cons.mp he with rfl | he
          · exact ⟨rfl, hs0t⟩
          · exact ih1 e he
        · exact List.Pairwise.cons (fun e he => hlost_ge e he) ih2
        · intro s hs e he
          rcases List.mem_cons.mp he with rfl | he
          · rcases ih6 s hs with h | h
            · rcases List.mem_map.mp h with ⟨x, hx, hx1⟩
              exact le_trans (hpw.1 x hx) (le_of_eq hx1)
            · simp at h
          · exact ih3 s hs e he
        · intro s hs x hx
          cases tl with
          | nil => simp [scan_loop] at hs
          | cons hd2 tl2 =>
            rw [List.getLast?_cons_cons] at hx
            exact ih4 s hs x hx
        · intro e he
          rcases List.mem_cons.mp he with rfl | he
          · exact Or.inr rfl
          · rcases ih5 e he with h | h
            · exact Or.inl (by rw [List.map_cons]; exact List.mem_cons_of_mem _ h)
            · simp at h
        · intro s hs
          rcases ih6 s hs with h | h
          · exact Or.inl (by rw [List.map_cons]; exact List.mem_cons_of_mem _ h)
          · simp at h

/-- Counts, along the scan, how many events the loop will emit: `inRun` is
whether the scanner is currently inside an interruption (`in_interrupt`).
The final open run, if any, is counted as one event. -/
def ftCount : List Bool → Bool → ℕ
  | [], inRun => if inRun then 1 else 0
  | b :: rest, inRun => (if inRun && b then 1 else 0) + ftCount rest (!b)

/-- The number of `true → false` transitions between adjacent samples of a
boolean signal. -/
def countTF : List Bool → ℕ
  | [] => 0
  | [_] => 0
  | b1 :: b2 :: rest => (if b1 && !b2 then 1 else 0) + countTF (b2 :: rest)

theorem scan_loop_count (l : List (ℤ × Bool)) : ∀ st : Option ℤ,
    (scan_loop l st).1.length + (if (scan_loop l st).2.isSome then 1 else 0)
      = ftCount (l.map Prod.snd) st.isSome := by
  induction l with
  | nil => intro st; simp [scan_loop, ftCount]
  | cons hd tl ih =>
    obtain ⟨t, b⟩ := hd
    intro st
    cases st with
    | none =>
      cases b with
      | false => simpa [scan_loop, ftCount] using ih (some t)
      | true => simpa [scan_loop, ftCount] using ih none
    | some s =>
      cases b with
      | false => simpa [scan_loop, ftCount] using ih (some s)
      | true =>
        have h := ih none
        simp [scan_loop, ftCount] at h ⊢
        omega

theorem ftCount_eq (bs : List Bool) :
    ftCount bs false = countTF bs + (if bs.head? = some false then 1 else 0)
    ∧ ftCount bs true = countTF bs + 1 := by
  induction bs with
  | nil => simp [ftCount, countTF]
  | cons b rest ih =>
    rcases rest with _ | ⟨b2, rest'⟩
    · cases b <;> simp [ftCount, countTF]
    · obtain ⟨ihf, iht⟩ := ih
      cases b <;> cases b2 <;>
        simp [ftCount, countTF, List.head?] at ihf iht ⊢ <;> omega

theorem zip_getLast_fst (ts : List ℤ) (ss : List Bool) (hlen : ts.length = ss.length) :
    ((ts.zip ss).getLast?).map Prod.fst = ts.getLast? := by
  rw [← List.getLast?_map, List.map_fst_zip ts ss hlen.le]

/-- Well-formedness and disjointness of the full extractor output on
time-sorted input of matching lengths (trailing open event included). -/
theorem get_supply_interruptions_spec (ts : List ℤ) (ss : List Bool)
    (hlen : ts.length = ss.length) (hsort : List.Pairwise (· ≤ ·) ts) :
    (∀ e ∈ get_supply_interruptions ts ss,
        e.duration = e.regained_time - e.lost_time ∧ e.lost_time ≤ e.regained_time)
    ∧ List.Pairwise (fun e1 e2 : InterruptionEvent => e1.regained_time ≤ e2.lost_time)
        (get_supply_interruptions ts ss) := by
  have hpw : List.Pairwise (fun a b : ℤ × Bool => a.1 ≤ b.1) (ts.zip ss) := by
    have h1 : List.Pairwise (· ≤ ·) ((ts.zip ss).map Prod.fst) := by
      rw [List.map_fst_zip ts ss hlen.le]; exact hsort
    exact List.pairwise_map.mp h1
  obtain ⟨m1, m2, m3, m4, m5, m6⟩ := scan_loop_spec (ts.zip ss) none hpw (by simp)
  cases hm : (scan_loop (ts.zip ss) none).2 with
  | none =>
    have hred : get_supply_interruptions ts ss = (scan_loop (ts.zip ss) none).1 := by
      unfold get_supply_interruptions
      rw [hm]
    rw [hred]
    exact ⟨m1, m2⟩
  | some s =>
    cases hg : (ts.zip ss).getLast? with
    | none =>
      rw [List.getLast?_eq_none_iff] at hg
      rw [hg] at hm
      simp [scan_loop] at hm
    | some x =>
      have hgl : ts.getLast? = some x.1 := by
        rw [← zip_getLast_fst ts ss hlen, hg]
        rfl
      have hred : get_supply_interruptions ts ss =
          (scan_loop (ts.zip ss) none).1 ++ [⟨s, x.1, x.1 - s⟩] := by
        unfold get_supply_interruptions
        rw [hm, hgl]
      rw [hred]
      have hsx : s ≤ x.1 := m4 s hm x hg
      constructor
      · intro e he
        rcases List.mem_append.mp he with he | he
        · exact m1 e he
        · rcases List.mem_singleton.mp he with rfl
          exact ⟨rfl, hsx⟩
      · rw [List.pairwise_append]
        refine ⟨m2, List.pairwise_singleton _ _, ?_⟩
        intro a ha b hb
        rcases List.mem_singleton.mp hb with rfl
        exact m3 s hm a ha

/-- The number of events returned by the extractor, on input of matching
lengths: the `true → false` transition count plus one if the signal starts
out of supply. -/
theorem get_supply_interruptions_length (ts : List ℤ) (ss : List Bool)
    (hlen : ts.length = ss.length) :
    (get_supply_interruptions ts ss).length
      = countTF ss + (if ss.head? = some false then 1 else 0) := by
  have hsnd : (ts.zip ss).map Prod.snd = ss := List.map_snd_zip ts ss hlen.ge
  have hcount := scan_loop_count (ts.zip ss) none
  rw [hsnd] at hcount
  cases hm : (scan_loop (ts.zip ss) none).2 with
  | none =>
    have hred : get_supply_interruptions ts ss = (scan_loop (ts.zip ss) none).1 := by
      unfold get_supply_interruptions
      rw [hm]
    rw [hm] at hcount
    simp at hcount
    rw [hred, hcount]
    exact (ftCount_eq ss).1
  | some s =>
    cases hg : (ts.zip ss).getLast? with
    | none =>
      rw [List.getLast?_eq_none_iff] at hg
      rw [hg] at hm
      simp [scan_loop] at hm
    | some x =>
      have hgl : ts.getLast? = some x.1 := by
        rw [← zip_getLast_fst ts ss hlen, hg]
        rfl
      have hred : get_supply_interruptions ts ss =
          (scan_loop (ts.zip ss) none).1 ++ [⟨s, x.1, x.1 - s⟩] := by
        unfold get_supply_interruptions
        rw [hm, hgl]
      rw [hm] at hcount
      simp at hcount
      rw [hred]
      simp only [List.length_append, List.length_singleton]
      rw [hcount]
      exact (ftCount_eq ss).1

theorem scan_loop_all_true (l : List (ℤ × Bool)) (h : ∀ x ∈ l, x.2 = true) :
    scan_loop l none = ([], none) := by
  induction l with
  | nil => rfl
  | cons hd tl ih =>
    obtain ⟨t, b⟩ := hd
    have hb : b = true := h (t, b) (by simp)
    subst hb
    rw [show scan_loop ((t, true) :: tl) none = scan_loop tl none from by simp [scan_loop]]
    exact ih (fun x hx => h x (List.mem_cons_of_mem _ hx))

theorem scan_loop_all_false (l : List (ℤ × Bool)) (s : ℤ) (h : ∀ x ∈ l, x.2 = false) :
    scan_loop l (some s) = ([], some s) := by
  induction l with
  | nil => rfl
  | cons hd tl ih =>
    obtain ⟨t, b⟩ := hd
    have hb : b = false := h (t, b) (by simp)
    subst hb
    rw [show scan_loop ((t, false) :: tl) (some s) = scan_loop tl (some s) from by
      simp [scan_loop]]
    exact ih (fun x hx => h x (List.mem_cons_of_mem _ hx))

/-- C1 (corrected).  For equal-length input with non-decreasing timestamps,
the number of emitted InterruptionEvents equals the number of true-to-false
transitions in the signal **plus one when the signal starts out of supply**
(the trailing open event is already counted by that formula — it is *not* an
extra `+1` for ending out of supply, which is what the original claim says),
and the emitted intervals never overlap (each event's regained_time is at
most the next event's lost_time). -/
theorem interruption_count_and_no_overlap (ts : List ℤ) (ss : List Bool)
    (hlen : ts.length = ss.length) (hsort : List.Pairwise (· ≤ ·) ts) :
    (get_supply_interruptions ts ss).length
      = countTF ss + (if ss.head? = some false then 1 else 0)
    ∧ List.Pairwise (fun e1 e2 : InterruptionEvent => e1.regained_time ≤ e2.lost_time)
        (get_supply_interruptions ts ss) :=
  ⟨get_supply_interruptions_length ts ss hlen,
    (get_supply_interruptions_spec ts ss hlen hsort).2⟩

theorem interruption_count_and_no_overlap_witness :
    (get_supply_interruptions [0, 1, 2, 3] [true, false, false, true]).length
      = countTF [true, false, false, true]
        + (if ([true, false, false, true] : List Bool).head? = some false then 1 else 0)
    ∧ List.Pairwise (fun e1 e2 : InterruptionEvent => e1.regained_time ≤ e2.lost_time)
        (get_supply_interruptions [0, 1, 2, 3] [true, false, false, true]) :=
  interruption_count_and_no_overlap [0, 1, 2, 3] [true, false, false, true]
    (by decide) (by decide)

/-- C1 counterexample.  Timestamps `[0, 1]` (equal length, sorted) with signal
`[false, true]`: the signal has no true-to-false transition and the scan ends
in supply, so the claimed count is `0`, yet the extractor emits one event
(the leading out-of-supply run). -/
theorem interruption_count_counterexample :
    ¬ ((get_supply_interruptions [0, 1] [false, true]).length
        = countTF [false, true]
          + (if ([false, true] : List Bool).getLast? = some false then 1 else 0)) := by
  decide

/-- C4 (corrected).  On equal-length input with non-decreasing timestamps
every emitted event satisfies `lost_time ≤ regained_time` (the strict
inequality of the original claim fails) and
`duration = regained_time - lost_time ≥ 0`. -/
theorem event_invariant (ts : List ℤ) (ss : List Bool)
    (hlen : ts.length = ss.length) (hsort : List.Pairwise (· ≤ ·) ts) :
    ∀ e ∈ get_supply_interruptions ts ss,
      e.lost_time ≤ e.regained_time
      ∧ e.duration = e.regained_time - e.lost_time
      ∧ 0 ≤ e.duration := by
  intro e he
  obtain ⟨hd, hle⟩ := (get_supply_interruptions_spec ts ss hlen hsort).1 e he
  exact ⟨hle, hd, by omega⟩

theorem event_invariant_witness :
    (⟨1, 3, 2⟩ : InterruptionEvent).lost_time
        ≤ (⟨1, 3, 2⟩ : InterruptionEvent).regained_time
    ∧ (⟨1, 3, 2⟩ : InterruptionEvent).duration
        = (⟨1, 3, 2⟩ : InterruptionEvent).regained_time
          - (⟨1, 3, 2⟩ : InterruptionEvent).lost_time
    ∧ 0 ≤ (⟨1, 3, 2⟩ : InterruptionEvent).duration :=
  event_invariant [0, 1, 2, 3] [true, false, false, true] (by decide) (by decide)
    ⟨1, 3, 2⟩ (by decide)

/-- C4 counterexample.  With strictly increasing timestamps `[0, 1]` and
signal `[true, false]` the trailing open event is closed with the final
timestamp, giving `lost_time = regained_time = 1`: the strict inequality
`lost_time < regained_time` fails. -/
theorem event_strict_counterexample :
    ¬ (∀ e ∈ get_supply_interruptions [0, 1] [true, false],
        e.lost_time < e.regained_time) := by
  decide

/-- C5 (corrected).  A single-reading series yields no events when the
single signal value is true, but — contrary to the claim — when it is false
the extractor emits one zero-duration event whose lost and regained times
are both the single timestamp. -/
theorem single_reading_events (t : ℤ) :
    get_supply_interruptions [t] [true] = []
    ∧ get_supply_interruptions [t] [false] = [⟨t, t, 0⟩] := by
  refine ⟨rfl, ?_⟩
  simp [get_supply_interruptions, scan_loop]

/-- C5 counterexample.  A single out-of-supply reading produces a (zero
duration) event, not the empty sequence the claim requires. -/
theorem single_reading_counterexample :
    get_supply_interruptions [0] [false] ≠ [] := by decide

/-- C7 (confirmed).  A constant-true signal yields no events; a
constant-false signal yields exactly one event spanning from the first to
the last timestamp. -/
theorem constant_signal_round_trip (ts : List ℤ) (sst ssf : List Bool)
    (hlent : ts.length = sst.length) (hlenf : ts.length = ssf.length)
    (htrue : ∀ b ∈ sst, b = true) (hfalse : ∀ b ∈ ssf, b = false)
    (hne : ts ≠ []) :
    get_supply_interruptions ts sst = []
    ∧ get_supply_interruptions ts ssf =
        [⟨ts.head hne, ts.getLast hne, ts.getLast hne - ts.head hne⟩] := by
  constructor
  · have hz : ∀ x ∈ ts.zip sst, x.2 = true :=
      fun x hx => htrue x.2 (List.of_mem_zip hx).2
    have hsl := scan_loop_all_true (ts.zip sst) hz
    unfold get_supply_interruptions
    rw [hsl]
  · cases ts with
    | nil => exact absurd rfl hne
    | cons t ts' =>
      cases ssf with
      | nil => simp at hlenf
      | cons b0 ssf' =>
        have hb0 : b0 = false := hfalse b0 (by simp)
        subst hb0
        have hz : ∀ x ∈ ts'.zip ssf', x.2 = false :=
          fun x hx => hfalse x.2 (List.mem_cons_of_mem _ (List.of_mem_zip hx).2)
        have h1 : scan_loop ((t :: ts').zip (false :: ssf')) none = ([], some t) := by
          rw [List.zip_cons_cons]
          rw [show scan_loop ((t, false) :: ts'.zip ssf') none
              = scan_loop (ts'.zip ssf') (some t) from by simp [scan_loop]]
          exact scan_loop_all_false _ t hz
        unfold get_supply_interruptions
        rw [h1, List.getLast?_eq_getLast (t :: ts') hne]
        simp

theorem constant_signal_round_trip_witness :
    get_supply_interruptions [0, 1] [true, true] = []
    ∧ get_supply_interruptions [0, 1] [false, false] = [⟨0, 1, 1⟩] := by
  have h := constant_signal_round_trip [0, 1] [true, true] [false, false]
    (by decide) (by decide) (by decide) (by decide) (by decide)
  simpa using h

/-- C10 (confirmed).  The extractor is total on zero-length input and
returns the empty event sequence. -/
theorem empty_input_no_events : get_supply_interruptions [] [] = [] := rfl

/-- A row of `result_rows` as consumed by `process_outages` (lines 172-224).
Sentinel rows (`'Lost Supply': "In supply all times"`, lines 407-415) carry
`in_supply_all_times = true`; their time fields are irrelevant because
`process_outages` filters them out (line 184). -/
structure ResultRow where
  property_height : ℚ
  total_properties : ℕ
  in_supply_all_times : Bool
  lost_supply : ℤ
  regained_supply : ℤ
  raw_duration : ℤ
deriving Repr, DecidableEq

/-- The state `current_event` dict of `process_outages` (lines 191-195). -/
structure RunningOutage where
  lost : ℤ
  regained : ℤ
  cumulative : ℤ
deriving Repr, DecidableEq

/-- A processed outage dict (lines 203-209 and 216-222):
`Outage Duration (raw)` is `cumulative_duration`. -/
structure AggregatedOutage where
  property_height : ℚ
  total_properties : ℕ
  lost_supply : ℤ
  regained_supply : ℤ
  cumulative_duration : ℤ
deriving Repr, DecidableEq

/-- Sort key of line 187: ascending by `Lost Supply`. -/
def lostLe (a b : ResultRow) : Prop := a.lost_supply ≤ b.lost_supply

instance : DecidableRel lostLe :=
  fun a b => inferInstanceAs (Decidable (a.lost_supply ≤ b.lost_supply))

instance : IsTotal ResultRow lostLe := ⟨fun a b => le_total a.lost_supply b.lost_supply⟩

instance : IsTrans ResultRow lostLe := ⟨fun _ _ _ hab hbc => le_trans hab hbc⟩

/-- Sort key of line 223: descending by `Property Height (m)`; Python's
stable `sorted(..., reverse=True)` equals a stable sort by the flipped key. -/
def heightGe (a b : AggregatedOutage) : Prop := b.property_height ≤ a.property_height

instance : DecidableRel heightGe :=
  fun a b => inferInstanceAs (Decidable (b.property_height ≤ a.property_height))

instance : IsTotal AggregatedOutage heightGe :=
  ⟨fun a b => le_total b.property_height a.property_height⟩

instance : IsTrans AggregatedOutage heightGe :=
  ⟨fun _ _ _ hab hbc => le_trans hbc hab⟩

/-- Iteration order of the `defaultdict` built on lines 182-185: distinct
keys in order of first occurrence (Python dicts preserve insertion order). -/
def firstOccurAux : List ℚ → List ℚ → List ℚ
  | [], _ => []
  | h :: t, seen =>
    if h ∈ seen then firstOccurAux t seen else h :: firstOccurAux t (h :: seen)

def firstOccur (l : List ℚ) : List ℚ := firstOccurAux l []

/-- The merging loop of `process_outages` (lines 188-222), including the
post-loop emission (lines 215-222): the state is the optional
`current_event`; `timedelta(hours=1)` is 3600 s and `timedelta(hours=3)`
is 10800 s. -/
def mergeLoop (h : ℚ) (p : ℕ) :
    List ResultRow → Option RunningOutage → List AggregatedOutage
  | [], none => []
  | [], some c =>
    if 10800 ≤ c.cumulative then [⟨h, p, c.lost, c.regained, c.cumulative⟩] else []
  | e :: rest, none =>
    mergeLoop h p rest (some ⟨e.lost_supply, e.regained_supply, e.raw_duration⟩)
  | e :: rest, some c =>
    if e.lost_supply - c.regained < 3600 then
      mergeLoop h p rest
        (some ⟨c.lost, e.regained_supply,
          c.cumulative + (e.lost_supply - c.regained + e.raw_duration)⟩)
    else
      (if 10800 ≤ c.cumulative then [⟨h, p, c.lost, c.regained, c.cumulative⟩] else [])
        ++ mergeLoop h p rest (some ⟨e.lost_supply, e.regained_supply, e.raw_duration⟩)

/-- One height group (lines 186-222): its events in input order, the
`events[0]` total-properties, and the merge over the lost-time-sorted
events (`events_sorted`, line 187). -/
def processGroup (evs : List ResultRow) (h : ℚ) : List AggregatedOutage :=
  match evs.filter (fun r => decide (r.property_height = h)) with
  | [] => []
  | e0 :: rest =>
    mergeLoop h e0.total_properties (List.insertionSort lostLe (e0 :: rest)) none

/-- Embedding of `process_outages` (lines 172-224): filter out sentinel rows, group by
property height (insertion order), merge each group, and sort the combined
output by height descending (line 223). -/
def process_outages (result_rows : List ResultRow) : List AggregatedOutage :=
  List.insertionSort heightGe
    ((firstOccur ((result_rows.filter (fun r => !r.in_supply_all_times)).map
        (fun r => r.property_height))).flatMap
      (processGroup (result_rows.filter (fun r => !r.in_supply_all_times))))

example : process_outages [⟨0, 1, false, 0, 3600, 3600⟩] = [] := by decide

example : process_outages [⟨0, 1, false, 0, 10800, 10800⟩] =
    [⟨0, 1, 0, 10800, 10800⟩] := by decide

example : process_outages
    [⟨0, 5, false, 0, 7200, 7200⟩, ⟨0, 5, false, 9000, 16200, 7200⟩] =
    [⟨0, 5, 0, 16200, 16200⟩] := by decide

/-- Sum of the raw durations of a list of rows. -/
def sumDurations (l : List ResultRow) : ℤ := (l.map (fun r => r.raw_duration)).sum

/-- Sum of the consecutive gaps (each row's lost time minus the previous
row's regained time). -/
def sumGaps : List ResultRow → ℤ
  | [] => 0
  | [_] => 0
  | e1 :: e2 :: rest => (e2.lost_supply - e1.regained_supply) + sumGaps (e2 :: rest)

/-- The amount the merging loop adds to a running outage with regained time
`r` when folding in every row of the list. -/
def foldSum : ℤ → List ResultRow → ℤ
  | _, [] => 0
  | r, e :: rest => (e.lost_supply - r) + e.raw_duration + foldSum e.regained_supply rest

/-- The regained time of a running outage with regained time `r` after
folding in every row of the list. -/
def lastRegained : ℤ → List ResultRow → ℤ
  | r, [] => r
  | _, e :: rest => lastRegained e.regained_supply rest

theorem mergeLoop_fold (h : ℚ) (p : ℕ) (l : List ResultRow) : ∀ c : RunningOutage,
    (∀ e, l.head? = some e → e.lost_supply - c.regained < 3600) →
    List.Chain' (fun a b => b.lost_supply - a.regained_supply < 3600) l →
    mergeLoop h p l (some c) =
      if 10800 ≤ c.cumulative + foldSum c.regained l then
        [⟨h, p, c.lost, lastRegained c.regained l, c.cumulative + foldSum c.regained l⟩]
      else [] := by
  induction l with
  | nil =>
    intro c _ _
    simp [mergeLoop, foldSum, lastRegained]
  | cons e rest ih =>
    intro c hhead hchain
    have hgap : e.lost_supply - c.regained < 3600 := hhead e rfl
    rw [List.chain'_cons'] at hchain
    have hrec := ih ⟨c.lost, e.regained_supply,
        c.cumulative + (e.lost_supply - c.regained + e.raw_duration)⟩
      (fun e2 he2 => hchain.1 e2 he2) hchain.2
    have hml : mergeLoop h p (e :: rest) (some c) =
        mergeLoop h p rest (some ⟨c.lost, e.regained_supply,
          c.cumulative + (e.lost_supply - c.regained + e.raw_duration)⟩) := by
      simp [mergeLoop, hgap]
    rw [hml, hrec]
    have harith : c.cumulative + (e.lost_supply - c.regained + e.raw_duration)
        + foldSum e.regained_supply rest
        = c.cumulative + foldSum c.regained (e :: rest) := by
      simp [foldSum]
      ring
    have hlast : lastRegained e.regained_supply rest = lastRegained c.regained (e :: rest) := rfl
    dsimp only
    rw [harith, hlast]

theorem foldSum_eq (rest : List ResultRow) : ∀ e : ResultRow,
    e.raw_duration + foldSum e.regained_supply rest
      = sumDurations (e :: rest) + sumGaps (e :: rest) := by
  induction rest with
  | nil => intro e; simp [foldSum, sumDurations, sumGaps]
  | cons e2 rest' ih =>
    intro e
    have h2 := ih e2
    simp [foldSum, sumDurations, sumGaps] at h2 ⊢
    omega

theorem lastRegained_eq (rest : List ResultRow) : ∀ e : ResultRow,
    lastRegained e.regained_supply rest
      = ((e :: rest).getLast (List.cons_ne_nil e rest)).regained_supply := by
  induction rest with
  | nil => intro e; simp [lastRegained]
  | cons e2 rest' ih =>
    intro e
    rw [show lastRegained e.regained_supply (e2 :: rest')
        = lastRegained e2.regained_supply rest' from rfl, ih e2]
    rw [List.getLast_cons (List.cons_ne_nil e2 rest')]

theorem firstOccurAux_subset_seen (l : List ℚ) : ∀ seen : List ℚ,
    (∀ x ∈ l, x ∈ seen) → firstOccurAux l seen = [] := by
  induction l with
  | nil => intro seen _; rfl
  | cons a t ih =>
    intro seen hsub
    have ha : a ∈ seen := hsub a (by simp)
    rw [show firstOccurAux (a :: t) seen = firstOccurAux t seen from by
      simp [firstOccurAux, ha]]
    exact ih seen (fun x hx => hsub x (List.mem_cons_of_mem _ hx))

theorem firstOccur_const (a : ℚ) (t : List ℚ) (hall : ∀ x ∈ t, x = a) :
    firstOccur (a :: t) = [a] := by
  unfold firstOccur
  rw [show firstOccurAux (a :: t) [] = a :: firstOccurAux t [a] from by
    simp [firstOccurAux]]
  rw [firstOccurAux_subset_seen t [a] (fun x hx => by simp [hall x hx])]

theorem mergeLoop_cum_ge (h : ℚ) (p : ℕ) (l : List ResultRow) : ∀ st : Option RunningOutage,
    ∀ o ∈ mergeLoop h p l st, 10800 ≤ o.cumulative_duration := by
  induction l with
  | nil =>
    intro st o ho
    cases st with
    | none => simp [mergeLoop] at ho
    | some c =>
      by_cases hc : 10800 ≤ c.cumulative
      · simp [mergeLoop, hc] at ho
        rw [ho]
        exact hc
      · simp [mergeLoop, hc] at ho
  | cons e rest ih =>
    intro st o ho
    cases st with
    | none =>
      exact ih (some ⟨e.lost_supply, e.regained_supply, e.raw_duration⟩) o
        (by simpa [mergeLoop] using ho)
    | some c =>
      by_cases hg : e.lost_supply - c.regained < 3600
      · rw [show mergeLoop h p (e :: rest) (some c) = mergeLoop h p rest
            (some ⟨c.lost, e.regained_supply,
              c.cumulative + (e.lost_supply - c.regained + e.raw_duration)⟩) from by
          simp [mergeLoop, hg]] at ho
        exact ih _ o ho
      · rw [show mergeLoop h p (e :: rest) (some c) =
            (if 10800 ≤ c.cumulative then [⟨h, p, c.lost, c.regained, c.cumulative⟩] else [])
              ++ mergeLoop h p rest
                (some ⟨e.lost_supply, e.regained_supply, e.raw_duration⟩) from by
          simp [mergeLoop, hg]] at ho
        rcases List.mem_append.mp ho with ho | ho
        · by_cases hc : 10800 ≤ c.cumulative
          · simp [hc] at ho
            rw [ho]
            exact hc
          · simp [hc] at ho
        · exact ih _ o ho

theorem process_outages_cum_ge (rows : List ResultRow) :
    ∀ o ∈ process_outages rows, 10800 ≤ o.cumulative_duration := by
  intro o ho
  unfold process_outages at ho
  rw [List.Perm.mem_iff (List.perm_insertionSort heightGe _)] at ho
  rcases List.mem_flatMap.mp ho with ⟨hh, hmem, ho2⟩
  unfold processGroup at ho2
  rcases hfe : (rows.filter (fun r => !r.in_supply_all_times)).filter
      (fun r => decide (r.property_height = hh)) with _ | ⟨e0, rest⟩
  · rw [hfe] at ho2
    simp at ho2
  · rw [hfe] at ho2
    exact mergeLoop_cum_ge hh e0.total_properties _ none o ho2

/-- C2 (corrected).  For a nonempty single-height chain of non-sentinel
events, sorted by lost time, whose consecutive gaps are all strictly below
the 1-hour merge threshold, the aggregator produces exactly one
AggregatedOutage whose cumulative_duration is the sum of all event durations
plus all folded-in gaps — **provided that total reaches the 3-hour minimum
duration** (the original claim omits this filter; without it the chain
produces no output at all, see the counterexample). -/
theorem single_chain_aggregation (rows : List ResultRow) (h : ℚ)
    (hne : rows ≠ [])
    (hh : ∀ r ∈ rows, r.property_height = h)
    (hs : ∀ r ∈ rows, r.in_supply_all_times = false)
    (hsorted : List.Pairwise lostLe rows)
    (hgaps : List.Chain' (fun a b => b.lost_supply - a.regained_supply < 3600) rows)
    (hmin : 10800 ≤ sumDurations rows + sumGaps rows) :
    process_outages rows =
      [⟨h, (rows.head hne).total_properties, (rows.head hne).lost_supply,
        (rows.getLast hne).regained_supply, sumDurations rows + sumGaps rows⟩] := by
  cases rows with
  | nil => exact absurd rfl hne
  | cons e0 rest =>
    have hfilter1 : (e0 :: rest).filter (fun r => !r.in_supply_all_times) = e0 :: rest :=
      List.filter_eq_self.mpr (fun r hr => by simp [hs r hr])
    have he0 : e0.property_height = h := hh e0 (by simp)
    have hheads : firstOccur ((e0 :: rest).map (fun r => r.property_height)) = [h] := by
      have hconst := firstOccur_const e0.property_height
        (rest.map (fun r => r.property_height)) (by
          intro x hx
          rcases List.mem_map.mp hx with ⟨r, hr, rfl⟩
          rw [hh r (List.mem_cons_of_mem _ hr), ← he0])
      rw [List.map_cons, hconst, he0]
    have hfilter2 : (e0 :: rest).filter (fun r => decide (r.property_height = h))
        = e0 :: rest :=
      List.filter_eq_self.mpr (fun r hr => by simp [hh r hr])
    have hsid : List.insertionSort lostLe (e0 :: rest) = e0 :: rest :=
      List.Sorted.insertionSort_eq hsorted
    have hassemble : process_outages (e0 :: rest)
        = List.insertionSort heightGe (processGroup (e0 :: rest) h) := by
      unfold process_outages
      rw [hfilter1, hheads]
      simp
    rw [List.chain'_cons'] at hgaps
    have hml := mergeLoop_fold h e0.total_properties rest
      ⟨e0.lost_supply, e0.regained_supply, e0.raw_duration⟩
      (fun e2 he2 => hgaps.1 e2 he2) hgaps.2
    have hml0 : mergeLoop h e0.total_properties (e0 :: rest) none
        = mergeLoop h e0.total_properties rest
            (some ⟨e0.lost_supply, e0.regained_supply, e0.raw_duration⟩) := by
      simp [mergeLoop]
    have hX : e0.raw_duration + foldSum e0.regained_supply rest
        = sumDurations (e0 :: rest) + sumGaps (e0 :: rest) := foldSum_eq rest e0
    rw [hassemble]
    unfold processGroup
    rw [hfilter2]
    show List.insertionSort heightGe
      (mergeLoop h e0.total_properties (List.insertionSort lostLe (e0 :: rest)) none) = _
    rw [hsid, hml0, hml]
    dsimp only
    rw [hX, lastRegained_eq rest e0, if_pos hmin]
    simp

theorem single_chain_aggregation_witness :
    process_outages [⟨1, 5, false, 0, 7200, 7200⟩, ⟨1, 5, false, 9000, 16200, 7200⟩]
      = [⟨1, 5, 0, 16200, 16200⟩] := by
  have h := single_chain_aggregation
    [⟨1, 5, false, 0, 7200, 7200⟩, ⟨1, 5, false, 9000, 16200, 7200⟩] 1
    (by decide) (by decide) (by decide)
    (by simp [List.pairwise_cons, lostLe])
    (by simp [List.chain'_cons])
    (by decide)
  simpa using h

/-- C2 counterexample.  A single-event chain (its gap condition is vacuous)
of duration 1 hour produces *no* AggregatedOutage at all: the aggregator also
filters by the 3-hour minimum cumulative duration, which the claim omits. -/
theorem single_chain_counterexample :
    process_outages [⟨0, 1, false, 0, 3600, 3600⟩] = [] := by decide

/-- C6 (confirmed).  Nothing below the 3-hour minimum is ever emitted (first
conjunct, fully general), a running outage of exactly 10800 s is emitted and
one of 10799 s is not, both on the post-loop path (single event) and on the
gap-closure path (first of two events separated by a gap of at least one
hour). -/
theorem minimum_duration_boundary :
    (∀ (rows : List ResultRow) (o : AggregatedOutage),
        o ∈ process_outages rows → 10800 ≤ o.cumulative_duration)
    ∧ process_outages [⟨0, 1, false, 0, 10800, 10800⟩] = [⟨0, 1, 0, 10800, 10800⟩]
    ∧ process_outages [⟨0, 1, false, 0, 10799, 10799⟩] = []
    ∧ process_outages
        [⟨0, 1, false, 0, 10800, 10800⟩, ⟨0, 1, false, 14400, 25200, 10800⟩]
        = [⟨0, 1, 0, 10800, 10800⟩, ⟨0, 1, 14400, 25200, 10800⟩]
    ∧ process_outages
        [⟨0, 1, false, 0, 10799, 10799⟩, ⟨0, 1, false, 14400, 25200, 10800⟩]
        = [⟨0, 1, 14400, 25200, 10800⟩] :=
  ⟨fun rows o ho => process_outages_cum_ge rows o ho,
    by decide, by decide, by decide, by decide⟩

theorem minimum_duration_boundary_witness :
    10800 ≤ (⟨0, 1, 0, 10800, 10800⟩ : AggregatedOutage).cumulative_duration :=
  minimum_duration_boundary.1 [⟨0, 1, false, 0, 10800, 10800⟩]
    ⟨0, 1, 0, 10800, 10800⟩ (by decide)

/-- C9 (confirmed).  The aggregator output, across all height groups, is
sorted by property height in descending order. -/
theorem processed_sorted_by_height (rows : List ResultRow) :
    List.Pairwise (fun a b : AggregatedOutage => b.property_height ≤ a.property_height)
      (process_outages rows) := by
  unfold process_outages
  exact List.sorted_insertionSort heightGe _

/-- The vectorised column of line 392 (also line 244):
`Modified_Pressure = Pressure - additional_headloss`. -/
def modified_pressure (pressures : List ℚ) (additional_headloss : ℚ) : List ℚ :=
  pressures.map (fun p => p - additional_headloss)

/-- The vectorised column of line 393 (also line 245):
`Effective_Supply_Head = logger_height + (Modified_Pressure - 3)`. -/
def effective_supply_head (logger_height : ℚ) (mp : List ℚ) : List ℚ :=
  mp.map (fun m => logger_height + (m - 3))

/-- The per-height supply status of `run_analysis` (lines 401-404); the same
branch appears in `compute_quick_table` (lines 251-254). -/
def supply_status (pressures : List ℚ)
    (logger_height additional_headloss property_height : ℚ) : List Bool :=
  if property_height ≤ logger_height then
    (modified_pressure pressures additional_headloss).map (fun m => decide (0 < m))
  else
    (effective_supply_head logger_height
      (modified_pressure pressures additional_headloss)).map
      (fun eh => decide (property_height < eh))

/-- C3 (confirmed).  The derived signal has the same length as the reading
sequence, and its i-th entry is `(pressure - headloss) > 0` when the
property height is at most the logger height, and
`loggerHeight + (pressure - headloss - 3) > height` otherwise. -/
theorem supply_status_spec (pressures : List ℚ)
    (logger_height additional_headloss property_height : ℚ) :
    (supply_status pressures logger_height additional_headloss property_height).length
        = pressures.length
    ∧ ∀ i : ℕ,
        (supply_status pressures logger_height additional_headloss property_height)[i]?
          = (pressures[i]?).map (fun p =>
              if property_height ≤ logger_height then
                decide (p - additional_headloss > 0)
              else
                decide (logger_height + (p - additional_headloss - 3) > property_height)) := by
  constructor
  · unfold supply_status
    split <;> simp [modified_pressure, effective_supply_head]
  · intro i
    unfold supply_status modified_pressure effective_supply_head
    split
    · cases hp : pressures[i]? <;> simp [List.getElem?_map, hp, sub_pos, *]
    · cases hp : pressures[i]? <;> simp [List.getElem?_map, hp, *]

/-- Embedding of `calc_cml` (lines 144-146): `hours = raw_seconds / 3600`, then
`((hours * total_properties) / 1473786) * 60`; the identical formula is
inlined at line 275 of `compute_quick_table`. -/
def calc_cml (raw_duration_seconds : ℚ) (total_properties : ℚ) : ℚ :=
  ((raw_duration_seconds / 3600) * total_properties / 1473786) * 60

/-- C8 (confirmed).  For a duration given in hours, the impact equals
`(hours * affectedCount / 1473786) * 60`; in particular for 3 hours and 100
properties it is `(3 * 100 / 1473786) * 60`. -/
theorem cml_formula :
    (∀ hours props : ℚ, calc_cml (hours * 3600) props = hours * props / 1473786 * 60)
    ∧ calc_cml (3 * 3600) 100 = 3 * 100 / 1473786 * 60 := by
  have hgen : ∀ hours props : ℚ,
      calc_cml (hours * 3600) props = hours * props / 1473786 * 60 := by
    intro hours props
    unfold calc_cml
    rw [mul_div_cancel_right₀ hours (by norm_num : (3600 : ℚ) ≠ 0)]
  exact ⟨hgen, hgen 3 100⟩
